import Mathlib

/-!
Verification of the keyword-data-extraction orchestrator (`app.py`).

This file gives a shallow embedding of the core of `app.py`:

* `clean_keyword` (app.py lines 18-30): the input-normalization step,
  modelled character-by-character over `List Char`.  Python's regex class
  `[^\w\s\-.,?!&'"]` is embedded as `isKeptChar`, with `\w` rendered as
  alphanumeric-or-underscore and `\s` as `Char.isWhitespace`; `\s+ -> ' '`
  is the whitespace-run collapse `collapse_ws`, and `.strip()` is `trim_ws`.

* `process_large_keyword_list` (app.py lines 141-330): the batching,
  submission, polling and reconciliation orchestrator.  The Streamlit UI
  calls are pure sinks and are dropped; the remote API (`submit_keywords_task`
  and `get_task_results`, the spec's Remote Job Client) is an `Oracle`
  parameter giving the outcome of each submit call and of each poll of a
  task at a given attempt number.  The `time.sleep` calls have no observable
  effect beyond the computed interval, which is embedded separately as
  `current_interval` (line 221).  Python's `while pending_tasks and
  attempt < max_attempts` loop is embedded with an explicit `remaining`
  counter (`remaining = max_attempts - attempt`), so the recursion is
  structural and the definitions evaluate by `decide`.

  One genuine control-flow fact of the source is kept: when every
  submission fails, `task_ids` is empty, the polling block (guarded by
  `if task_ids:`) is skipped, and line 316 `if pending_tasks:` then reads a
  local variable that was never assigned, so the Python function raises
  `NameError` instead of returning.  The embedding records this as
  `crashed = true` in the `RunOutcome`, together with the state the
  function had accumulated at the raise site.
-/

/-- One result row as built throughout `app.py`: dictionaries with keys
`keyword`, `search_volume`, `competition`, `note`. -/
structure KeywordResult where
  keyword : String
  search_volume : Int
  competition : Int
  note : String
deriving DecidableEq

/-- Outcome of one `get_task_results(task_id, client)` call as observed by
`process_large_keyword_list` (app.py lines 239-298): the string
`"in_progress"`, a returned value (`None` or a list, where `None` and the
empty list are both falsy at line 248), or a raised exception with message. -/
inductive PollOutcome where
  | inProgress
  | ret (records : Option (List KeywordResult))
  | err (msg : String)

/-- The Remote Job Client collaborator: `submit` maps the 1-based batch
number and the cleaned batch that was posted to an optional task id
(app.py line 174), and `poll` maps a task id and the attempt number to the
outcome of that poll (app.py line 239). -/
structure Oracle where
  submit : Nat → List String → Option String
  poll : String → Nat → PollOutcome

/-- Embedding of the character class kept by the regex
`[^\w\s\-.,?!&'"]` in `clean_keyword` (app.py line 26): word characters
(alphanumeric or underscore), whitespace, and the listed punctuation. -/
def isKeptChar (c : Char) : Bool :=
  c.isAlphanum || c = '_' || c.isWhitespace ||
    c = '-' || c = '.' || c = ',' || c = '?' || c = '!' || c = '&' ||
    c = '\'' || c = '"'

/-- First substitution of `clean_keyword` (app.py line 26): every character
outside the kept class is replaced by a single space. -/
def subst_nonkept (s : List Char) : List Char :=
  s.map fun c => if isKeptChar c then c else ' '

/-- Scanner for the second substitution `re.sub(r'\s+', ' ', ...)`
(app.py line 28): each maximal run of whitespace becomes one space.  The
Boolean flag records whether the previous character was inside a
whitespace run. -/
def collapse_go : Bool → List Char → List Char
  | _, [] => []
  | prevWs, c :: rest =>
    if c.isWhitespace then
      if prevWs then collapse_go true rest
      else ' ' :: collapse_go true rest
    else c :: collapse_go false rest

/-- Second substitution of `clean_keyword` (app.py line 28). -/
def collapse_ws (s : List Char) : List Char :=
  collapse_go false s

/-- Python's `.strip()` (app.py line 30): drop whitespace from both ends. -/
def trim_ws (s : List Char) : List Char :=
  ((s.dropWhile Char.isWhitespace).reverse.dropWhile Char.isWhitespace).reverse

/-- `clean_keyword` on the character list (app.py lines 18-30). -/
def clean_chars (s : List Char) : List Char :=
  trim_ws (collapse_ws (subst_nonkept s))

/-- `clean_keyword` (app.py lines 18-30). -/
def clean_keyword (s : String) : String :=
  String.mk (clean_chars s.data)

/-- Fueled slicing loop: `for i in range(0, len(keywords), batch_size):
batch = keywords[i:i + batch_size]` (app.py lines 166-167).  The fuel is an
upper bound on the number of slices; `planBatches` supplies `xs.length`,
which suffices whenever the cap is positive. -/
def planBatchesGo (c : Nat) : Nat → List α → List (List α)
  | 0, _ => []
  | _, [] => []
  | fuel + 1, x :: xs => (x :: xs).take c :: planBatchesGo c fuel ((x :: xs).drop c)

/-- The Batch Planner: the slicing loop of app.py lines 166-167 for a cap
`c`.  `process_large_keyword_list` uses the fixed cap 500 (line 146). -/
def planBatches (c : Nat) (xs : List α) : List (List α) :=
  planBatchesGo c xs.length xs

/-- `total_batches = (len(keywords) + batch_size - 1) // batch_size`
(app.py line 149) with the fixed `batch_size = 500` of line 146. -/
def totalBatches (keywords : List String) : Nat :=
  (keywords.length + 500 - 1) / 500

/-- A zero-metric placeholder row with an explanatory note, as synthesized
at app.py lines 184, 255-260, 267-268, 297-298 and 320-321. -/
def mkRecord (note : String) (k : String) : KeywordResult :=
  ⟨k, 0, 0, note⟩

/-- The reconciliation step of app.py lines 248-262: keep the provider's
record list as is, then append one `"No data found"` placeholder for each
batch position whose stored text does not occur among the provider record
texts (`processed_keywords` is computed from the provider list before any
append, hence `provided` is fixed in the filter). -/
def reconcile (batch : List String) (provided : List KeywordResult) : List KeywordResult :=
  provided ++
    (batch.filter fun k => !(provided.any fun r => r.keyword = k)).map
      (mkRecord "No data found")

/-- Does some record of `recs` carry exactly the text `k`?  This is the
membership test `keyword in processed_keywords` of app.py line 254. -/
def covers (recs : List KeywordResult) (k : String) : Bool :=
  recs.any fun r => r.keyword = k

/-- Run-scoped mutable state of `process_large_keyword_list`: `all_results`
(line 155), `completed_batches` (line 154) and the sequence of counter
values passed to `progress_bar.progress` (lines 187, 275, 303, 328). -/
structure RunState where
  allResults : List KeywordResult
  completedBatches : Nat
  reports : List Nat
deriving DecidableEq

/-- Fold one terminal batch into the run state: extend `all_results`,
increment `completed_batches` and report the new counter to the progress
sink — the triple of statements repeated at app.py lines 184-187, 262-275,
299-303 and 322-328. -/
def recordDone (st : RunState) (recs : List KeywordResult) : RunState :=
  ⟨st.allResults ++ recs, st.completedBatches + 1,
    st.reports ++ [st.completedBatches + 1]⟩

/-- A pending entry `(task_id, batch, batch_num)` as appended at
app.py line 177. -/
abbrev PendingTask := String × List String × Nat

/-- The submission loop of app.py lines 166-187: clean each keyword, submit
the cleaned batch; on success record `(task_id, batch, batch_num)` (with the
original, uncleaned batch, exactly as line 177 does); on failure fold a
batch of `"Failed to submit task"` placeholders into the state. -/
def submitBatches (o : Oracle) : Nat → List (List String) → RunState →
    List PendingTask × RunState
  | _, [], st => ([], st)
  | num, b :: rest, st =>
    match o.submit num (b.map clean_keyword) with
    | some tid =>
      let r := submitBatches o (num + 1) rest st
      ((tid, b, num) :: r.1, r.2)
    | none =>
      submitBatches o (num + 1) rest
        (recordDone st (b.map (mkRecord "Failed to submit task")))

/-- Handling of one pending task inside a polling round (app.py lines
233-306): still in progress keeps the task pending; a nonempty result list
is reconciled and folded in; an empty or `None` result folds in
`"Task failed to return results"` placeholders; an exception folds in
`"Error: ..."` placeholders when `attempt >= max_attempts - 1` (line 296)
and otherwise keeps the task pending. -/
def pollTask (o : Oracle) (attempt maxAttempts : Nat) (t : PendingTask)
    (st : RunState) : Option PendingTask × RunState :=
  match o.poll t.1 attempt with
  | .inProgress => (some t, st)
  | .ret r =>
    match r with
    | some (rec :: recs) => (none, recordDone st (reconcile t.2.1 (rec :: recs)))
    | _ => (none, recordDone st (t.2.1.map (mkRecord "Task failed to return results")))
  | .err msg =>
    if maxAttempts - 1 ≤ attempt then
      (none, recordDone st (t.2.1.map (mkRecord ("Error: " ++ msg))))
    else (some t, st)

/-- One polling round: every currently pending task is polled once, in
order, accumulating the `still_pending` list (app.py lines 232-309). -/
def pollRound (o : Oracle) (attempt maxAttempts : Nat) :
    List PendingTask → RunState → List PendingTask × RunState
  | [], st => ([], st)
  | t :: ts, st =>
    let r1 := pollTask o attempt maxAttempts t st
    let r2 := pollRound o attempt maxAttempts ts r1.2
    (r1.1.toList ++ r2.1, r2.2)

/-- The polling loop `while pending_tasks and attempt < max_attempts`
(app.py lines 208-313), with `remaining = maxAttempts - attempt` made
explicit so the recursion is structural.  Returns the still-pending tasks,
the state, and the final value of `attempt` (the number of rounds that
ran, each round having incremented `attempt` at line 209). -/
def pollLoop (o : Oracle) (maxAttempts : Nat) :
    Nat → Nat → List PendingTask → RunState →
    List PendingTask × RunState × Nat
  | 0, attempt, pending, st => (pending, st, attempt)
  | _ + 1, attempt, [], st => ([], st, attempt)
  | remaining + 1, attempt, t :: ts, st =>
    let r := pollRound o (attempt + 1) maxAttempts (t :: ts) st
    pollLoop o maxAttempts remaining (attempt + 1) r.1 r.2

/-- The timeout placeholders produced for a list of still-pending tasks
(app.py lines 319-322), one record per batch item. -/
def timeoutRecords (pending : List PendingTask) : List KeywordResult :=
  (pending.map fun t =>
    t.2.1.map (mkRecord "Task timeout - processing took too long")).flatten

/-- The timeout block of app.py lines 316-328: each still-pending task is
folded in as a batch of timeout placeholders. -/
def timeoutPending (pending : List PendingTask) (st : RunState) : RunState :=
  pending.foldl
    (fun s t => recordDone s (t.2.1.map (mkRecord "Task timeout - processing took too long")))
    st

/-- Observable outcome of one call to `process_large_keyword_list`:
the accumulated results, the final `completed_batches` counter, the
sequence of counter values reported to the progress sink, the number of
polling rounds executed, and whether the call ended in the `NameError`
of line 316 (`crashed = true`, reached exactly when no batch was
successfully submitted) rather than in a normal return. -/
structure RunOutcome where
  results : List KeywordResult
  completed : Nat
  reports : List Nat
  rounds : Nat
  crashed : Bool
deriving DecidableEq

/-- `process_large_keyword_list` (app.py lines 141-330) over the remote
oracle `o`: fixed batch size 500, submission phase, polling phase with
`max_attempts = 120` (line 194), and the trailing timeout block.  When
`task_ids` is empty the polling block is skipped and line 316 raises
`NameError` (`pending_tasks` was never assigned); the outcome then carries
the state accumulated up to the raise and `crashed = true`. -/
def process_large_keyword_list (o : Oracle) (keywords : List String) : RunOutcome :=
  let sub := submitBatches o 1 (planBatches 500 keywords) ⟨[], 0, []⟩
  match sub.1 with
  | [] => ⟨sub.2.allResults, sub.2.completedBatches, sub.2.reports, 0, true⟩
  | t :: ts =>
    let lp := pollLoop o 120 120 0 (t :: ts) sub.2
    let st2 := timeoutPending lp.1 lp.2.1
    ⟨st2.allResults, st2.completedBatches, st2.reports, lp.2.2, false⟩

/-- `current_interval = min(max_interval, poll_interval * (1.2 ** min(10,
attempt - 1)))` (app.py line 221) with `poll_interval = 5` and
`max_interval = 30` (lines 195-196), over exact rationals (the float
computation of the source stays well clear of rounding boundaries at every
value this function takes). -/
def current_interval (attempt : Nat) : ℚ :=
  min 30 (5 * (6 / 5 : ℚ) ^ min 10 (attempt - 1))

/-! ### Batch Planner lemmas -/

theorem planBatchesGo_nil (c fuel : Nat) : planBatchesGo c fuel ([] : List α) = [] := by
  cases fuel <;> rfl

theorem planBatchesGo_flatten (c : Nat) (hc : 0 < c) :
    ∀ (fuel : Nat) (xs : List α), xs.length ≤ fuel →
      (planBatchesGo c fuel xs).flatten = xs := by
  intro fuel
  induction fuel with
  | zero =>
    intro xs h
    have hx : xs = [] := List.eq_nil_of_length_eq_zero (Nat.le_zero.mp h)
    subst hx; rfl
  | succ n ih =>
    intro xs h
    cases xs with
    | nil => rfl
    | cons x xs =>
      show ((x :: xs).take c ++ (planBatchesGo c n ((x :: xs).drop c)).flatten) = x :: xs
      rw [ih ((x :: xs).drop c) (by rw [List.length_drop]; simp at h ⊢; omega)]
      exact List.take_append_drop c (x :: xs)

theorem planBatchesGo_length (c : Nat) (hc : 0 < c) :
    ∀ (fuel : Nat) (xs : List α), xs.length ≤ fuel →
      (planBatchesGo c fuel xs).length = (xs.length + c - 1) / c := by
  intro fuel
  induction fuel with
  | zero =>
    intro xs h
    have hx : xs = [] := List.eq_nil_of_length_eq_zero (Nat.le_zero.mp h)
    subst hx
    show 0 = (0 + c - 1) / c
    rw [Nat.div_eq_of_lt (by omega)]
  | succ n ih =>
    intro xs h
    cases xs with
    | nil => show 0 = (0 + c - 1) / c; rw [Nat.div_eq_of_lt (by omega)]
    | cons x xs =>
      show (planBatchesGo c n ((x :: xs).drop c)).length + 1 = ((x :: xs).length + c - 1) / c
      rw [ih ((x :: xs).drop c) (by rw [List.length_drop]; simp at h ⊢; omega),
        List.length_drop]
      rcases le_or_lt (x :: xs).length c with hle | hlt
      · have h1 : 1 ≤ (x :: xs).length := by simp only [List.length_cons]; omega
        have h0 : (x :: xs).length - c = 0 := by omega
        rw [h0, Nat.div_eq_of_lt (by omega),
          @Nat.div_eq_of_lt_le 1 c ((x :: xs).length + c - 1) (by omega) (by omega)]
      · have e1 : (x :: xs).length - c + c - 1 = (x :: xs).length - 1 := by omega
        have e2 : (x :: xs).length + c - 1 = ((x :: xs).length - 1) + c := by omega
        rw [e1, e2, Nat.add_div_right _ hc]

theorem planBatchesGo_sizes (c : Nat) (hc : 0 < c) :
    ∀ (fuel : Nat) (xs : List α), xs.length ≤ fuel →
      ∀ b ∈ planBatchesGo c fuel xs, 0 < b.length ∧ b.length ≤ c := by
  intro fuel
  induction fuel with
  | zero =>
    intro xs h b hb
    have hx : xs = [] := List.eq_nil_of_length_eq_zero (Nat.le_zero.mp h)
    subst hx; simp [planBatchesGo] at hb
  | succ n ih =>
    intro xs h b hb
    cases xs with
    | nil => simp [planBatchesGo] at hb
    | cons x xs =>
      rcases List.mem_cons.mp hb with hhd | htl
      · subst hhd
        rw [List.length_take]
        constructor
        · simp [Nat.lt_min]; omega
        · exact min_le_left _ _
      · exact ih ((x :: xs).drop c) (by rw [List.length_drop]; simp at h ⊢; omega) b htl

theorem planBatchesGo_cons (c n : Nat) (x : α) (xs : List α) :
    planBatchesGo c (n + 1) (x :: xs)
      = (x :: xs).take c :: planBatchesGo c n ((x :: xs).drop c) := rfl

theorem planBatchesGo_ne_nil (c n : Nat) (x : α) (xs : List α) :
    planBatchesGo c (n + 1) (x :: xs) ≠ [] := by
  rw [planBatchesGo_cons]; simp

theorem planBatchesGo_dropLast (c : Nat) (hc : 0 < c) :
    ∀ (fuel : Nat) (xs : List α), xs.length ≤ fuel →
      ∀ b ∈ (planBatchesGo c fuel xs).dropLast, b.length = c := by
  intro fuel
  induction fuel with
  | zero =>
    intro xs h b hb
    have hx : xs = [] := List.eq_nil_of_length_eq_zero (Nat.le_zero.mp h)
    subst hx; simp [planBatchesGo] at hb
  | succ n ih =>
    intro xs h b hb
    cases xs with
    | nil => simp [planBatchesGo] at hb
    | cons x xs =>
      rw [planBatchesGo_cons] at hb
      rcases hdrop : (x :: xs).drop c with _ | ⟨y, ys⟩
      · rw [hdrop, planBatchesGo_nil] at hb
        simp at hb
      · have hlen : (x :: xs).length - c = (y :: ys).length := by
          rw [← List.length_drop, hdrop]
        simp only [List.length_cons] at hlen h
        cases n with
        | zero => omega
        | succ n' =>
          rw [hdrop, List.dropLast_cons_of_ne_nil (planBatchesGo_ne_nil c n' y ys)] at hb
          rcases List.mem_cons.mp hb with hhd | htl
          · subst hhd
            rw [List.length_take]
            simp only [List.length_cons]
            omega
          · rw [← hdrop] at htl
            refine ih ((x :: xs).drop c) ?_ b htl
            rw [List.length_drop]
            simp only [List.length_cons]
            omega

theorem planBatches_flatten (c : Nat) (hc : 0 < c) (xs : List α) :
    (planBatches c xs).flatten = xs :=
  planBatchesGo_flatten c hc xs.length xs (le_refl _)

theorem planBatches_length (c : Nat) (hc : 0 < c) (xs : List α) :
    (planBatches c xs).length = (xs.length + c - 1) / c :=
  planBatchesGo_length c hc xs.length xs (le_refl _)

/-! ### Coverage and reconciliation lemmas -/

theorem covers_append (a b : List KeywordResult) (k : String) :
    covers (a ++ b) k = (covers a k || covers b k) :=
  List.any_append

theorem covers_mono (a b : List KeywordResult) (k : String)
    (h : covers a k = true) : covers (a ++ b) k = true := by
  rw [covers_append, h, Bool.true_or]

theorem covers_mono_right (a b : List KeywordResult) (k : String)
    (h : covers b k = true) : covers (a ++ b) k = true := by
  rw [covers_append, h, Bool.or_true]

theorem covers_map_mkRecord (note : String) (b : List String) (k : String)
    (hk : k ∈ b) : covers (b.map (mkRecord note)) k = true := by
  rw [covers, List.any_eq_true]
  exact ⟨mkRecord note k, List.mem_map_of_mem _ hk, by simp [mkRecord]⟩

theorem reconcile_covers (batch : List String) (l : List KeywordResult)
    (k : String) (hk : k ∈ batch) : covers (reconcile batch l) k = true := by
  by_cases h : l.any (fun r => r.keyword = k) = true
  · exact covers_mono _ _ _ h
  · apply covers_mono_right
    apply covers_map_mkRecord
    rw [List.mem_filter]
    exact ⟨hk, by simp [h]⟩

theorem recordDone_allResults (st : RunState) (recs : List KeywordResult) :
    (recordDone st recs).allResults = st.allResults ++ recs := rfl

theorem recordDone_completed (st : RunState) (recs : List KeywordResult) :
    (recordDone st recs).completedBatches = st.completedBatches + 1 := rfl

theorem recordDone_reports (st : RunState) (recs : List KeywordResult)
    (h : st.reports = List.range' 1 st.completedBatches) :
    (recordDone st recs).reports
      = List.range' 1 (recordDone st recs).completedBatches := by
  have e : 1 + 1 * st.completedBatches = st.completedBatches + 1 := by omega
  show st.reports ++ [st.completedBatches + 1] = List.range' 1 (st.completedBatches + 1)
  rw [h, List.range'_concat, e]

/-! ### Poll-task case analysis -/

theorem pollTask_cases (o : Oracle) (a m : Nat) (t : PendingTask) (st : RunState) :
    pollTask o a m t st = (some t, st) ∨
    ∃ recs, pollTask o a m t st = (none, recordDone st recs) ∧
      ∀ k ∈ t.2.1, covers recs k = true := by
  cases h : o.poll t.1 a with
  | inProgress => left; simp only [pollTask, h]
  | ret r =>
    right
    cases r with
    | none =>
      exact ⟨t.2.1.map (mkRecord "Task failed to return results"),
        by simp only [pollTask, h], fun k hk => covers_map_mkRecord _ _ _ hk⟩
    | some l =>
      cases l with
      | nil =>
        exact ⟨t.2.1.map (mkRecord "Task failed to return results"),
          by simp only [pollTask, h], fun k hk => covers_map_mkRecord _ _ _ hk⟩
      | cons r0 rs =>
        exact ⟨reconcile t.2.1 (r0 :: rs),
          by simp only [pollTask, h], fun k hk => reconcile_covers _ _ _ hk⟩
  | err msg =>
    by_cases hle : m - 1 ≤ a
    · right
      refine ⟨t.2.1.map (mkRecord ("Error: " ++ msg)), ?_,
        fun k hk => covers_map_mkRecord _ _ _ hk⟩
      simp only [pollTask, h]
      rw [if_pos hle]
    · left
      simp only [pollTask, h]
      rw [if_neg hle]

/-! ### Polling round and loop invariants -/

theorem pollRound_spec (o : Oracle) (a m : Nat) :
    ∀ (pending : List PendingTask) (st : RunState),
      (∃ tail, (pollRound o a m pending st).2.allResults = st.allResults ++ tail)
      ∧ (pollRound o a m pending st).2.completedBatches
            + (pollRound o a m pending st).1.length
          = st.completedBatches + pending.length
      ∧ (st.reports = List.range' 1 st.completedBatches →
          (pollRound o a m pending st).2.reports
            = List.range' 1 (pollRound o a m pending st).2.completedBatches)
      ∧ ∀ t ∈ pending, t ∈ (pollRound o a m pending st).1
          ∨ ∀ k ∈ t.2.1, covers (pollRound o a m pending st).2.allResults k = true := by
  intro pending
  induction pending with
  | nil =>
    intro st
    exact ⟨⟨[], by simp [pollRound]⟩, by simp [pollRound],
      fun h => by simp [pollRound]; exact h, by simp⟩
  | cons t ts ih =>
    intro st
    rcases pollTask_cases o a m t st with hcase | ⟨recs, hcase, hcov⟩
    · have h1 : (pollRound o a m (t :: ts) st).1 = t :: (pollRound o a m ts st).1 := by
        show (pollTask o a m t st).1.toList
            ++ (pollRound o a m ts (pollTask o a m t st).2).1 = _
        rw [hcase]
        rfl
      have h2 : (pollRound o a m (t :: ts) st).2 = (pollRound o a m ts st).2 := by
        show (pollRound o a m ts (pollTask o a m t st).2).2 = _
        rw [hcase]
      obtain ⟨⟨tl, htl⟩, hcnt, hrep, hcv⟩ := ih st
      refine ⟨⟨tl, by rw [h2]; exact htl⟩, ?_, ?_, ?_⟩
      · rw [h1, h2, List.length_cons]
        simp only [List.length_cons]
        omega
      · intro hr; rw [h2]; exact hrep hr
      · intro t' ht'
        rcases List.mem_cons.mp ht' with rfl | hmem
        · left; rw [h1]; exact List.mem_cons_self _ _
        · rcases hcv t' hmem with hp | hc
          · left; rw [h1]; exact List.mem_cons_of_mem _ hp
          · right; intro k hk; rw [h2]; exact hc k hk
    · have h1 : (pollRound o a m (t :: ts) st).1
          = (pollRound o a m ts (recordDone st recs)).1 := by
        show (pollTask o a m t st).1.toList
            ++ (pollRound o a m ts (pollTask o a m t st).2).1 = _
        rw [hcase]
        rfl
      have h2 : (pollRound o a m (t :: ts) st).2
          = (pollRound o a m ts (recordDone st recs)).2 := by
        show (pollRound o a m ts (pollTask o a m t st).2).2 = _
        rw [hcase]
      obtain ⟨⟨tl, htl⟩, hcnt, hrep, hcv⟩ := ih (recordDone st recs)
      refine ⟨⟨recs ++ tl, by
          rw [h2, htl, recordDone_allResults, List.append_assoc]⟩, ?_, ?_, ?_⟩
      · rw [h1, h2]
        rw [recordDone_completed] at hcnt
        simp only [List.length_cons]
        omega
      · intro hr; rw [h2]; exact hrep (recordDone_reports st recs hr)
      · intro t' ht'
        rcases List.mem_cons.mp ht' with rfl | hmem
        · right; intro k hk
          rw [h2, htl, recordDone_allResults, List.append_assoc]
          exact covers_mono_right _ _ _ (covers_mono _ _ _ (hcov k hk))
        · rcases hcv t' hmem with hp | hc
          · left; rw [h1]; exact hp
          · right; intro k hk; rw [h2]; exact hc k hk

theorem pollLoop_spec (o : Oracle) (m : Nat) :
    ∀ (fuel attempt : Nat) (pending : List PendingTask) (st : RunState),
      (∃ tail, (pollLoop o m fuel attempt pending st).2.1.allResults
          = st.allResults ++ tail)
      ∧ (pollLoop o m fuel attempt pending st).2.1.completedBatches
            + (pollLoop o m fuel attempt pending st).1.length
          = st.completedBatches + pending.length
      ∧ (st.reports = List.range' 1 st.completedBatches →
          (pollLoop o m fuel attempt pending st).2.1.reports
            = List.range' 1 (pollLoop o m fuel attempt pending st).2.1.completedBatches)
      ∧ ∀ t ∈ pending, t ∈ (pollLoop o m fuel attempt pending st).1
          ∨ ∀ k ∈ t.2.1,
              covers (pollLoop o m fuel attempt pending st).2.1.allResults k = true := by
  intro fuel
  induction fuel with
  | zero =>
    intro attempt pending st
    exact ⟨⟨[], by simp [pollLoop]⟩, rfl, fun h => h, fun t ht => Or.inl ht⟩
  | succ n ih =>
    intro attempt pending st
    cases pending with
    | nil =>
      exact ⟨⟨[], by simp [pollLoop]⟩, rfl, fun h => h,
        fun t ht => absurd ht (List.not_mem_nil t)⟩
    | cons t ts =>
      have heq : pollLoop o m (n + 1) attempt (t :: ts) st
          = pollLoop o m n (attempt + 1)
              (pollRound o (attempt + 1) m (t :: ts) st).1
              (pollRound o (attempt + 1) m (t :: ts) st).2 := rfl
      obtain ⟨⟨tl1, htl1⟩, hc1, hr1, hcv1⟩ := pollRound_spec o (attempt + 1) m (t :: ts) st
      obtain ⟨⟨tl2, htl2⟩, hc2, hr2, hcv2⟩ :=
        ih (attempt + 1) (pollRound o (attempt + 1) m (t :: ts) st).1
          (pollRound o (attempt + 1) m (t :: ts) st).2
      rw [heq]
      refine ⟨⟨tl1 ++ tl2, by rw [htl2, htl1, List.append_assoc]⟩, ?_, ?_, ?_⟩
      · omega
      · intro hr; exact hr2 (hr1 hr)
      · intro t' ht'
        rcases hcv1 t' ht' with hp | hc
        · exact hcv2 t' hp
        · right; intro k hk
          rw [htl2]
          exact covers_mono _ _ _ (hc k hk)

/-! ### Submission-phase invariants -/

theorem submitBatches_spec (o : Oracle) :
    ∀ (batches : List (List String)) (num : Nat) (st : RunState),
      (∃ tail, (submitBatches o num batches st).2.allResults = st.allResults ++ tail)
      ∧ (submitBatches o num batches st).2.completedBatches
            + (submitBatches o num batches st).1.length
          = st.completedBatches + batches.length
      ∧ (st.reports = List.range' 1 st.completedBatches →
          (submitBatches o num batches st).2.reports
            = List.range' 1 (submitBatches o num batches st).2.completedBatches)
      ∧ ∀ b ∈ batches, (∃ t ∈ (submitBatches o num batches st).1, t.2.1 = b)
          ∨ ∀ k ∈ b, covers (submitBatches o num batches st).2.allResults k = true := by
  intro batches
  induction batches with
  | nil =>
    intro num st
    exact ⟨⟨[], by simp [submitBatches]⟩, rfl, fun h => h, by simp⟩
  | cons b rest ih =>
    intro num st
    cases hsub : o.submit num (b.map clean_keyword) with
    | some tid =>
      have h1 : (submitBatches o num (b :: rest) st).1
          = (tid, b, num) :: (submitBatches o (num + 1) rest st).1 := by
        simp only [submitBatches, hsub]
      have h2 : (submitBatches o num (b :: rest) st).2
          = (submitBatches o (num + 1) rest st).2 := by
        simp only [submitBatches, hsub]
      obtain ⟨⟨tl, htl⟩, hc, hr, hcv⟩ := ih (num + 1) st
      refine ⟨⟨tl, by rw [h2]; exact htl⟩, ?_, ?_, ?_⟩
      · rw [h1, h2, List.length_cons]
        simp only [List.length_cons]
        omega
      · intro hrep; rw [h2]; exact hr hrep
      · intro b' hb'
        rcases List.mem_cons.mp hb' with rfl | hmem
        · left
          exact ⟨(tid, b', num), by rw [h1]; exact List.mem_cons_self _ _, rfl⟩
        · rcases hcv b' hmem with ⟨t, ht, hteq⟩ | hck
          · left; exact ⟨t, by rw [h1]; exact List.mem_cons_of_mem _ ht, hteq⟩
          · right; intro k hk; rw [h2]; exact hck k hk
    | none =>
      have h1 : (submitBatches o num (b :: rest) st).1
          = (submitBatches o (num + 1) rest
              (recordDone st (b.map (mkRecord "Failed to submit task")))).1 := by
        simp only [submitBatches, hsub]
      have h2 : (submitBatches o num (b :: rest) st).2
          = (submitBatches o (num + 1) rest
              (recordDone st (b.map (mkRecord "Failed to submit task")))).2 := by
        simp only [submitBatches, hsub]
      obtain ⟨⟨tl, htl⟩, hc, hr, hcv⟩ :=
        ih (num + 1) (recordDone st (b.map (mkRecord "Failed to submit task")))
      refine ⟨⟨b.map (mkRecord "Failed to submit task") ++ tl, by
          rw [h2, htl, recordDone_allResults, List.append_assoc]⟩, ?_, ?_, ?_⟩
      · rw [h1, h2]
        rw [recordDone_completed] at hc
        simp only [List.length_cons]
        omega
      · intro hrep; rw [h2]; exact hr (recordDone_reports _ _ hrep)
      · intro b' hb'
        rcases List.mem_cons.mp hb' with rfl | hmem
        · right; intro k hk
          rw [h2, htl, recordDone_allResults, List.append_assoc]
          exact covers_mono_right _ _ _ (covers_mono _ _ _ (covers_map_mkRecord _ _ _ hk))
        · rcases hcv b' hmem with ⟨t, ht, hteq⟩ | hck
          · left; exact ⟨t, by rw [h1]; exact ht, hteq⟩
          · right; intro k hk; rw [h2]; exact hck k hk

/-! ### Timeout-phase lemmas -/

theorem timeoutPending_spec :
    ∀ (pending : List PendingTask) (st : RunState),
      (timeoutPending pending st).allResults = st.allResults ++ timeoutRecords pending
      ∧ (timeoutPending pending st).completedBatches
          = st.completedBatches + pending.length
      ∧ (st.reports = List.range' 1 st.completedBatches →
          (timeoutPending pending st).reports
            = List.range' 1 (timeoutPending pending st).completedBatches) := by
  intro pending
  induction pending with
  | nil =>
    intro st
    exact ⟨by simp [timeoutPending, timeoutRecords], by simp [timeoutPending],
      fun h => by simpa [timeoutPending] using h⟩
  | cons t ts ih =>
    intro st
    have heq : timeoutPending (t :: ts) st
        = timeoutPending ts
            (recordDone st (t.2.1.map (mkRecord "Task timeout - processing took too long")))
        := rfl
    obtain ⟨ha, hc, hr⟩ :=
      ih (recordDone st (t.2.1.map (mkRecord "Task timeout - processing took too long")))
    rw [heq]
    refine ⟨?_, ?_, ?_⟩
    · rw [ha, recordDone_allResults, List.append_assoc]
      congr 1
    · rw [hc, recordDone_completed]
      simp only [List.length_cons]
      omega
    · intro hrep; exact hr (recordDone_reports _ _ hrep)

theorem covers_timeoutRecords (pending : List PendingTask) (t : PendingTask)
    (ht : t ∈ pending) (k : String) (hk : k ∈ t.2.1) :
    covers (timeoutRecords pending) k = true := by
  rw [covers, List.any_eq_true]
  refine ⟨mkRecord "Task timeout - processing took too long" k, ?_, by simp [mkRecord]⟩
  rw [timeoutRecords, List.mem_flatten]
  exact ⟨t.2.1.map (mkRecord "Task timeout - processing took too long"),
    List.mem_map_of_mem _ ht, List.mem_map_of_mem _ hk⟩

/-! ### All-in-progress polling -/

theorem pollRound_inProgress (o : Oracle)
    (h : ∀ t a, o.poll t a = PollOutcome.inProgress) (a m : Nat) :
    ∀ (pending : List PendingTask) (st : RunState),
      pollRound o a m pending st = (pending, st) := by
  intro pending
  induction pending with
  | nil => intro st; rfl
  | cons t ts ih =>
    intro st
    have htask : pollTask o a m t st = (some t, st) := by
      simp only [pollTask, h]
    show ((pollTask o a m t st).1.toList
        ++ (pollRound o a m ts (pollTask o a m t st).2).1,
        (pollRound o a m ts (pollTask o a m t st).2).2) = _
    rw [htask]
    rw [show ((some t, st) : Option PendingTask × RunState).2 = st from rfl, ih st]
    rfl

theorem pollLoop_inProgress (o : Oracle)
    (h : ∀ t a, o.poll t a = PollOutcome.inProgress) (m : Nat) :
    ∀ (fuel attempt : Nat) (t : PendingTask) (ts : List PendingTask) (st : RunState),
      pollLoop o m fuel attempt (t :: ts) st = (t :: ts, st, attempt + fuel) := by
  intro fuel
  induction fuel with
  | zero => intro attempt t ts st; rfl
  | succ n ih =>
    intro attempt t ts st
    show pollLoop o m n (attempt + 1)
        (pollRound o (attempt + 1) m (t :: ts) st).1
        (pollRound o (attempt + 1) m (t :: ts) st).2 = _
    rw [pollRound_inProgress o h (attempt + 1) m (t :: ts) st]
    show pollLoop o m n (attempt + 1) (t :: ts) st = _
    rw [ih (attempt + 1) t ts st,
      show attempt + 1 + n = attempt + (n + 1) from by omega]

/-! ### Run-level unfolding equations -/

theorem run_eq_crashed (o : Oracle) (kws : List String)
    (h : (submitBatches o 1 (planBatches 500 kws) ⟨[], 0, []⟩).1 = []) :
    process_large_keyword_list o kws
      = ⟨(submitBatches o 1 (planBatches 500 kws) ⟨[], 0, []⟩).2.allResults,
         (submitBatches o 1 (planBatches 500 kws) ⟨[], 0, []⟩).2.completedBatches,
         (submitBatches o 1 (planBatches 500 kws) ⟨[], 0, []⟩).2.reports, 0, true⟩ := by
  simp only [process_large_keyword_list, h]

theorem run_eq_polled (o : Oracle) (kws : List String)
    (t : PendingTask) (ts : List PendingTask)
    (h : (submitBatches o 1 (planBatches 500 kws) ⟨[], 0, []⟩).1 = t :: ts) :
    process_large_keyword_list o kws
      = ⟨(timeoutPending
            (pollLoop o 120 120 0 (t :: ts)
              (submitBatches o 1 (planBatches 500 kws) ⟨[], 0, []⟩).2).1
            (pollLoop o 120 120 0 (t :: ts)
              (submitBatches o 1 (planBatches 500 kws) ⟨[], 0, []⟩).2).2.1).allResults,
         (timeoutPending
            (pollLoop o 120 120 0 (t :: ts)
              (submitBatches o 1 (planBatches 500 kws) ⟨[], 0, []⟩).2).1
            (pollLoop o 120 120 0 (t :: ts)
              (submitBatches o 1 (planBatches 500 kws) ⟨[], 0, []⟩).2).2.1).completedBatches,
         (timeoutPending
            (pollLoop o 120 120 0 (t :: ts)
              (submitBatches o 1 (planBatches 500 kws) ⟨[], 0, []⟩).2).1
            (pollLoop o 120 120 0 (t :: ts)
              (submitBatches o 1 (planBatches 500 kws) ⟨[], 0, []⟩).2).2.1).reports,
         (pollLoop o 120 120 0 (t :: ts)
            (submitBatches o 1 (planBatches 500 kws) ⟨[], 0, []⟩).2).2.2,
         false⟩ := by
  simp only [process_large_keyword_list, h]

/-! ### Claim theorems -/

set_option maxRecDepth 100000 in
/-- C7 (confirmed): for every item list and positive cap `C`, the batch
planner produces `ceil(N / C)` batches whose concatenation is the original
list in order, every batch except possibly the last having size exactly
`C` (and every batch nonempty with size at most `C`); in particular 1050
items with cap 500 give 3 batches of sizes 500, 500, 50. -/
theorem batch_planner_correct (C : Nat) (hC : 0 < C) (xs : List String) :
    (planBatches C xs).flatten = xs
    ∧ (planBatches C xs).length = (xs.length + C - 1) / C
    ∧ (∀ b ∈ (planBatches C xs).dropLast, b.length = C)
    ∧ (∀ b ∈ planBatches C xs, 0 < b.length ∧ b.length ≤ C)
    ∧ (planBatches 500 (List.replicate 1050 "k")).map List.length = [500, 500, 50] := by
  refine ⟨planBatches_flatten C hC xs, planBatches_length C hC xs,
    planBatchesGo_dropLast C hC xs.length xs (le_refl _),
    planBatchesGo_sizes C hC xs.length xs (le_refl _), ?_⟩
  decide

/-- Witness for C7 at cap 2 on a three-element list. -/
theorem batch_planner_correct_witness :
    (planBatches 2 ["a", "b", "c"]).flatten = ["a", "b", "c"] :=
  (batch_planner_correct 2 (by decide) ["a", "b", "c"]).1

/-- C9 (confirmed): over every oracle behaviour and every input, the
sequence of completed-batch counter values reported to the progress sink is
exactly `1, 2, ..., totalBatches` — hence non-decreasing — and the final
counter equals the total batch count when the run completes, whether it
ends in a normal return or in the line-316 NameError. -/
theorem progress_counter (o : Oracle) (kws : List String) :
    (process_large_keyword_list o kws).completed = totalBatches kws
    ∧ (process_large_keyword_list o kws).reports = List.range' 1 (totalBatches kws)
    ∧ List.Sorted (· ≤ ·) (process_large_keyword_list o kws).reports := by
  have hsorted : ∀ n : Nat, List.Sorted (· ≤ ·) (List.range' 1 n) := fun n =>
    List.Pairwise.imp le_of_lt (List.pairwise_lt_range' 1 n)
  have htot : (planBatches 500 kws).length = totalBatches kws :=
    planBatches_length 500 (by omega) kws
  obtain ⟨-, hc, hr, -⟩ := submitBatches_spec o (planBatches 500 kws) 1 ⟨[], 0, []⟩
  have hr0 := hr rfl
  have hc0 : (submitBatches o 1 (planBatches 500 kws) ⟨[], 0, []⟩).2.completedBatches
      + (submitBatches o 1 (planBatches 500 kws) ⟨[], 0, []⟩).1.length
      = (planBatches 500 kws).length := by simpa using hc
  cases htids : (submitBatches o 1 (planBatches 500 kws) ⟨[], 0, []⟩).1 with
  | nil =>
    rw [run_eq_crashed o kws htids]
    rw [htids] at hc0
    simp only [List.length_nil] at hc0
    have hcc : (submitBatches o 1 (planBatches 500 kws) ⟨[], 0, []⟩).2.completedBatches
        = totalBatches kws := by omega
    exact ⟨hcc, by rw [← hcc]; exact hr0, by rw [hr0, hcc]; exact hsorted _⟩
  | cons t ts =>
    rw [run_eq_polled o kws t ts htids]
    obtain ⟨-, hlc, hlr, -⟩ := pollLoop_spec o 120 120 0 (t :: ts)
      (submitBatches o 1 (planBatches 500 kws) ⟨[], 0, []⟩).2
    obtain ⟨-, htc, htr⟩ := timeoutPending_spec
      (pollLoop o 120 120 0 (t :: ts)
        (submitBatches o 1 (planBatches 500 kws) ⟨[], 0, []⟩).2).1
      (pollLoop o 120 120 0 (t :: ts)
        (submitBatches o 1 (planBatches 500 kws) ⟨[], 0, []⟩).2).2.1
    rw [htids] at hc0
    have hcc : (timeoutPending
        (pollLoop o 120 120 0 (t :: ts)
          (submitBatches o 1 (planBatches 500 kws) ⟨[], 0, []⟩).2).1
        (pollLoop o 120 120 0 (t :: ts)
          (submitBatches o 1 (planBatches 500 kws) ⟨[], 0, []⟩).2).2.1).completedBatches
        = totalBatches kws := by
      rw [htc]
      omega
    have hrr := htr (hlr hr0)
    rw [hcc] at hrr
    exact ⟨hcc, hrr, by rw [hrr]; exact hsorted _⟩

/-- C1 (amended, proved): for every oracle behaviour and every input item,
some record in the run state's accumulated result collection carries
exactly that item's original text — no item's text is ever silently lost,
whether its batch failed submission, resolved, errored out or timed out.
(The exact-one-record-per-item cardinality of the original claim is false
on the code; see the counterexample.) -/
theorem run_covers_every_item (o : Oracle) (kws : List String) (k : String)
    (hk : k ∈ kws) :
    covers (process_large_keyword_list o kws).results k = true := by
  have hjoin : (planBatches 500 kws).flatten = kws :=
    planBatches_flatten 500 (by omega) kws
  obtain ⟨b, hb, hkinb⟩ : ∃ b ∈ planBatches 500 kws, k ∈ b :=
    List.mem_flatten.mp (by rw [hjoin]; exact hk)
  obtain ⟨-, -, -, hcov⟩ := submitBatches_spec o (planBatches 500 kws) 1 ⟨[], 0, []⟩
  cases htids : (submitBatches o 1 (planBatches 500 kws) ⟨[], 0, []⟩).1 with
  | nil =>
    rw [run_eq_crashed o kws htids]
    rcases hcov b hb with ⟨t, ht, -⟩ | hdone
    · rw [htids] at ht
      exact absurd ht (List.not_mem_nil t)
    · exact hdone k hkinb
  | cons t0 ts =>
    rw [run_eq_polled o kws t0 ts htids]
    obtain ⟨hta, -, -⟩ := timeoutPending_spec
      (pollLoop o 120 120 0 (t0 :: ts)
        (submitBatches o 1 (planBatches 500 kws) ⟨[], 0, []⟩).2).1
      (pollLoop o 120 120 0 (t0 :: ts)
        (submitBatches o 1 (planBatches 500 kws) ⟨[], 0, []⟩).2).2.1
    obtain ⟨⟨tl1, htl1⟩, -, -, hlcov⟩ := pollLoop_spec o 120 120 0 (t0 :: ts)
      (submitBatches o 1 (planBatches 500 kws) ⟨[], 0, []⟩).2
    show covers (timeoutPending
        (pollLoop o 120 120 0 (t0 :: ts)
          (submitBatches o 1 (planBatches 500 kws) ⟨[], 0, []⟩).2).1
        (pollLoop o 120 120 0 (t0 :: ts)
          (submitBatches o 1 (planBatches 500 kws) ⟨[], 0, []⟩).2).2.1).allResults k = true
    rw [hta]
    rcases hcov b hb with ⟨t, ht, hteq⟩ | hdone
    · rw [htids] at ht
      rcases hlcov t ht with hpend | hcv
      · exact covers_mono_right _ _ _
          (covers_timeoutRecords _ t hpend k (by rw [hteq]; exact hkinb))
      · exact covers_mono _ _ _ (hcv k (by rw [hteq]; exact hkinb))
    · rw [htl1]
      exact covers_mono _ _ _ (covers_mono _ _ _ (hdone k hkinb))

/-- C6 (confirmed): if at least one job was submitted and every poll
reports still-in-progress, the polling loop executes exactly the
configured maximum of 120 rounds (the final attempt counter is 120, not
less and not more), the run returns normally, and the final results are
the submission-phase results followed by exactly one
`"Task timeout - processing took too long"` placeholder per batch item of
every still-pending job. -/
theorem run_timeout_path (o : Oracle) (kws : List String)
    (hpoll : ∀ t a, o.poll t a = PollOutcome.inProgress)
    (hne : (submitBatches o 1 (planBatches 500 kws) ⟨[], 0, []⟩).1 ≠ []) :
    (process_large_keyword_list o kws).rounds = 120
    ∧ (process_large_keyword_list o kws).crashed = false
    ∧ (process_large_keyword_list o kws).results
        = (submitBatches o 1 (planBatches 500 kws) ⟨[], 0, []⟩).2.allResults
          ++ timeoutRecords (submitBatches o 1 (planBatches 500 kws) ⟨[], 0, []⟩).1 := by
  cases htids : (submitBatches o 1 (planBatches 500 kws) ⟨[], 0, []⟩).1 with
  | nil => exact absurd htids hne
  | cons t ts =>
    rw [run_eq_polled o kws t ts htids]
    rw [pollLoop_inProgress o hpoll 120 120 0 t ts
      (submitBatches o 1 (planBatches 500 kws) ⟨[], 0, []⟩).2]
    obtain ⟨hta, -, -⟩ := timeoutPending_spec (t :: ts)
      (submitBatches o 1 (planBatches 500 kws) ⟨[], 0, []⟩).2
    exact ⟨rfl, rfl, hta⟩

/-- Oracle for the C6 witness: one task that never leaves in-progress. -/
def oC6 : Oracle := ⟨fun _ _ => some "t", fun _ _ => PollOutcome.inProgress⟩

/-- Witness for C6 on a concrete run: the loop executes exactly 120
rounds. -/
theorem run_timeout_path_witness :
    (process_large_keyword_list oC6 ["a"]).rounds = 120 :=
  (run_timeout_path oC6 ["a"] (fun _ _ => rfl) (by decide)).1

/-- C5 (confirmed): for every round `r >= 1` the computed wait interval
equals `min(max_interval, base_interval * growth_factor^(r-1))` with
`base_interval = 5`, `growth_factor = 1.2 = 6/5` and ceiling
`max_interval = 30`: the exponent cap `min 10 (attempt - 1)` of line 221
never changes the value, since `5 * 1.2^10` already exceeds the ceiling.
The grace period before compounding is the single initial round: round 1
waits exactly the base interval and the interval grows from round 2 on. -/
theorem backoff_formula (r : Nat) (hr : 1 ≤ r) :
    current_interval r = min 30 (5 * (6 / 5 : ℚ) ^ (r - 1))
    ∧ current_interval 1 = 5 ∧ current_interval 1 < current_interval 2 := by
  refine ⟨?_, by norm_num [current_interval], by norm_num [current_interval]⟩
  unfold current_interval
  rcases le_or_lt (r - 1) 10 with h | h
  · rw [min_eq_right h]
  · have h10 : (30 : ℚ) ≤ 5 * (6 / 5 : ℚ) ^ 10 := by norm_num
    have hmono : (5 : ℚ) * (6 / 5 : ℚ) ^ 10 ≤ 5 * (6 / 5 : ℚ) ^ (r - 1) :=
      mul_le_mul_of_nonneg_left
        (pow_le_pow_right₀ (by norm_num) (le_of_lt h)) (by norm_num)
    rw [min_eq_left (le_of_lt h), min_eq_left h10, min_eq_left (le_trans h10 hmono)]

/-- Witness for C5 at round 12, where the exponent cap of line 221 is
active and both sides of the formula sit at the ceiling. -/
theorem backoff_formula_witness :
    current_interval 12 = min 30 (5 * (6 / 5 : ℚ) ^ (12 - 1))
    ∧ current_interval 1 = 5 ∧ current_interval 1 < current_interval 2 :=
  backoff_formula 12 (by norm_num)

/-- C8 (confirmed): the sequence of per-round wait intervals is monotone
non-decreasing in the round number, and every interval is at most the
configured ceiling of 30. -/
theorem backoff_monotone :
    (∀ r : Nat, current_interval r ≤ current_interval (r + 1))
    ∧ ∀ r : Nat, current_interval r ≤ 30 := by
  constructor
  · intro r
    unfold current_interval
    refine min_le_min (le_refl (30 : ℚ)) ?_
    refine mul_le_mul_of_nonneg_left ?_ (by norm_num)
    refine pow_le_pow_right₀ (by norm_num) ?_
    simp only [Nat.add_sub_cancel]
    omega
  · intro r
    unfold current_interval
    exact min_le_left _ _

/-! ### Concrete oracles and counterexample runs -/

/-- Oracle for the C1 counterexample and witness: one task; the provider
returns a single record for the (duplicated) keyword text. -/
def oC1 : Oracle :=
  ⟨fun _ _ => some "t", fun _ _ => PollOutcome.ret (some [⟨"a", 5, 1, ""⟩])⟩

set_option maxRecDepth 40000 in
/-- Counterexample to C1 as stated: for the two-item input `["a", "a"]`,
with submission succeeding and the provider returning one deduplicated
record for `"a"`, the run returns exactly one record, not two — the
set-based membership test of line 254 makes duplicate input items share a
single provider record. -/
theorem cardinality_counterexample :
    process_large_keyword_list oC1 ["a", "a"]
      = ⟨[⟨"a", 5, 1, ""⟩], 1, [1], 1, false⟩
    ∧ (process_large_keyword_list oC1 ["a", "a"]).results.length
        ≠ (["a", "a"] : List String).length := by
  decide

/-- Witness for the C1 coverage theorem on a concrete run. -/
theorem run_covers_every_item_witness :
    covers (process_large_keyword_list oC1 ["a", "a"]).results "a" = true :=
  run_covers_every_item oC1 ["a", "a"] "a" (by decide)

/-- Oracle for C2: every submission fails. -/
def oC2 : Oracle := ⟨fun _ _ => none, fun _ _ => PollOutcome.inProgress⟩

set_option maxRecDepth 100000 in
/-- C2 (code bug, evaluated at the failing input): with 250 items and
every submission failing, the accumulated state holds exactly 250
`"Failed to submit task"` placeholder records and zero polling rounds ran,
but the function does not return normally: `task_ids` is empty, the
polling block is skipped, and line 316 reads the never-assigned local
`pending_tasks`, raising `NameError` (`crashed = true` in the embedding).
The cap is also fixed at 500 by line 146, so the 250 items form one batch
(`completed = 1`), not the three batches a cap of 100 would give. -/
theorem all_submit_fail_crashes :
    process_large_keyword_list oC2 (List.replicate 250 "kw")
      = ⟨List.replicate 250 ⟨"kw", 0, 0, "Failed to submit task"⟩, 1, [1], 0, true⟩ := by
  decide

/-- Oracle for C3: the single task reports in-progress on rounds 1-118 and
raises an error from round 119 on. -/
def oC3 : Oracle :=
  ⟨fun _ _ => some "t",
   fun _ a => if a < 119 then PollOutcome.inProgress else PollOutcome.err "boom"⟩

set_option maxRecDepth 40000 in
/-- C3 (code bug, evaluated at the failing input): a poll error on round
119 — strictly before the final allowed round 120 — already transitions
the job to Failed: the run ends after exactly 119 rounds with the
`"Error: boom"` placeholder, because line 296 tests
`attempt >= max_attempts - 1`, which holds from round 119 on, although the
claim and the code's own comment at line 295 ("If we're on the last
attempt") reserve the transition for the final round. -/
theorem poll_error_marks_failed_before_final_round :
    process_large_keyword_list oC3 ["a"]
      = ⟨[⟨"a", 0, 0, "Error: boom"⟩], 1, [1], 119, false⟩ := by
  decide

/-- Oracle for the C4 counterexample: one task; the provider returns
exactly one record whose text is the cleaned form `"a"` of the submitted
keyword. -/
def oC4 : Oracle :=
  ⟨fun _ _ => some "t", fun _ _ => PollOutcome.ret (some [⟨"a", 7, 2, ""⟩])⟩

set_option maxRecDepth 40000 in
/-- Counterexample to C4 as stated: the batch is `["a#"]`, whose cleaned,
submitted text is `"a"`; the provider returns exactly the record for
`"a"`, yet reconciliation emits two records — the provider record for
`"a"` (a text not among the stored batch items, hence not ignored) plus a
`"No data found"` placeholder for `"a#"` — because line 253 matches
provider texts against the original batch texts stored at line 177, not
against the cleaned texts the submission posted. -/
theorem reconciliation_counterexample :
    process_large_keyword_list oC4 ["a#"]
      = ⟨[⟨"a", 7, 2, ""⟩, ⟨"a#", 0, 0, "No data found"⟩], 1, [1], 1, false⟩
    ∧ clean_keyword "a#" = "a"
    ∧ (process_large_keyword_list oC4 ["a#"]).results.length
        ≠ (["a#"] : List String).length := by
  decide

/-- C4 (amended, proved): reconciliation keeps every provider record
verbatim, including records for texts outside the batch; it appends
exactly one zero-metric `"No data found"` placeholder for each batch
position whose stored (original, pre-cleaning) text does not occur among
the provider record texts, and every batch text is covered by some output
record; matching is exact equality against the stored original text, not
the cleaned text that was submitted. -/
theorem reconcile_spec (batch : List String) (l : List KeywordResult) :
    (reconcile batch l).length
        = l.length + (batch.filter fun k => !(l.any fun r => r.keyword = k)).length
    ∧ (∀ r ∈ l, r ∈ reconcile batch l)
    ∧ (∀ k ∈ batch, covers (reconcile batch l) k = true)
    ∧ ∀ r ∈ reconcile batch l, r ∈ l
        ∨ (r.keyword ∈ batch ∧ r.search_volume = 0 ∧ r.competition = 0
            ∧ r.note = "No data found"
            ∧ (l.any fun q => q.keyword = r.keyword) = false) := by
  refine ⟨?_, ?_, ?_, ?_⟩
  · rw [reconcile, List.length_append, List.length_map]
  · intro r hr
    rw [reconcile]
    exact List.mem_append_left _ hr
  · intro k hk
    exact reconcile_covers batch l k hk
  · intro r hr
    rw [reconcile] at hr
    rcases List.mem_append.mp hr with h | h
    · exact Or.inl h
    · right
      obtain ⟨k, hk, rfl⟩ := List.mem_map.mp h
      obtain ⟨hkb, hfil⟩ := List.mem_filter.mp hk
      refine ⟨hkb, rfl, rfl, rfl, ?_⟩
      simpa using hfil

/-! ### Idempotence of the input-cleaning step -/

/-- Every character of the list lies in the kept class. -/
def allKept (l : List Char) : Prop := ∀ c ∈ l, isKeptChar c = true

/-- Every whitespace character of the list is the plain space. -/
def wsIsSpace (l : List Char) : Prop :=
  ∀ c ∈ l, c.isWhitespace = true → c = ' '

/-- No two adjacent characters of the list are both whitespace. -/
def noWsPair (l : List Char) : Prop :=
  l.Chain' fun a b => ¬(a.isWhitespace = true ∧ b.isWhitespace = true)

/-- The head of the list, when present, is not whitespace. -/
def headNotWs (l : List Char) : Prop :=
  ∀ c, l.head? = some c → c.isWhitespace = false

theorem allKept_subst (l : List Char) : allKept (subst_nonkept l) := by
  intro c hc
  rw [subst_nonkept, List.mem_map] at hc
  obtain ⟨d, -, rfl⟩ := hc
  by_cases h : isKeptChar d = true
  · rwa [if_pos h]
  · rw [if_neg h]
    decide

theorem subst_nonkept_id : ∀ l : List Char, allKept l → subst_nonkept l = l := by
  intro l
  induction l with
  | nil => intro _; rfl
  | cons d rest ih =>
    intro h
    show (if isKeptChar d then d else ' ') :: subst_nonkept rest = d :: rest
    rw [if_pos (h d (List.mem_cons_self _ _)),
      ih fun c hc => h c (List.mem_cons_of_mem _ hc)]

theorem collapse_go_chars :
    ∀ (l : List Char) (b : Bool) (c : Char), c ∈ collapse_go b l →
      c = ' ' ∨ (c ∈ l ∧ c.isWhitespace = false) := by
  intro l
  induction l with
  | nil => intro b c hc; simp [collapse_go] at hc
  | cons d rest ih =>
    intro b c hc
    by_cases hd : d.isWhitespace = true
    · cases b with
      | true =>
        rw [collapse_go, if_pos hd] at hc
        rcases ih true c hc with h | ⟨h1, h2⟩
        · exact Or.inl h
        · exact Or.inr ⟨List.mem_cons_of_mem _ h1, h2⟩
      | false =>
        rw [collapse_go, if_pos hd] at hc
        rcases List.mem_cons.mp hc with h | h
        · exact Or.inl h
        · rcases ih true c h with h' | ⟨h1, h2⟩
          · exact Or.inl h'
          · exact Or.inr ⟨List.mem_cons_of_mem _ h1, h2⟩
    · rw [collapse_go, if_neg hd] at hc
      rcases List.mem_cons.mp hc with h | h
      · subst h
        exact Or.inr ⟨List.mem_cons_self _ _, Bool.not_eq_true _ ▸ hd⟩
      · rcases ih false c h with h' | ⟨h1, h2⟩
        · exact Or.inl h'
        · exact Or.inr ⟨List.mem_cons_of_mem _ h1, h2⟩

theorem collapse_go_head_true :
    ∀ (l : List Char) (c : Char), (collapse_go true l).head? = some c →
      c.isWhitespace = false := by
  intro l
  induction l with
  | nil => intro c hc; simp [collapse_go] at hc
  | cons d rest ih =>
    intro c hc
    by_cases hd : d.isWhitespace = true
    · rw [collapse_go, if_pos hd] at hc
      exact ih c hc
    · rw [collapse_go, if_neg hd] at hc
      rw [List.head?_cons, Option.some_inj] at hc
      subst hc
      exact Bool.not_eq_true _ ▸ hd

theorem collapse_go_chain :
    ∀ (l : List Char) (b : Bool), noWsPair (collapse_go b l) := by
  intro l
  induction l with
  | nil => intro b; rw [collapse_go]; exact List.chain'_nil
  | cons d rest ih =>
    intro b
    by_cases hd : d.isWhitespace = true
    · cases b with
      | true =>
        rw [noWsPair, collapse_go, if_pos hd]
        exact ih true
      | false =>
        rw [noWsPair, collapse_go, if_pos hd]
        show List.Chain' _ (' ' :: collapse_go true rest)
        rw [List.chain'_cons']
        refine ⟨?_, ih true⟩
        intro y hy
        have := collapse_go_head_true rest y hy
        simp [this]
    · rw [noWsPair, collapse_go, if_neg hd, List.chain'_cons']
      refine ⟨?_, ih false⟩
      intro y hy
      simp [Bool.not_eq_true _ ▸ hd]

theorem collapse_go_id :
    ∀ l : List Char, wsIsSpace l → noWsPair l →
      collapse_go false l = l ∧ (headNotWs l → collapse_go true l = l) := by
  intro l
  induction l with
  | nil => intro _ _; exact ⟨rfl, fun _ => rfl⟩
  | cons d rest ih =>
    intro hws hch
    have hdecomp := (List.chain'_cons').mp hch
    have hws' : wsIsSpace rest := fun c hc hw => hws c (List.mem_cons_of_mem _ hc) hw
    obtain ⟨ih1, ih2⟩ := ih hws' hdecomp.2
    by_cases hd : d.isWhitespace = true
    · have hd' : d = ' ' := hws d (List.mem_cons_self _ _) hd
      have hrest : headNotWs rest := by
        intro c hc
        have := hdecomp.1 c hc
        by_cases hcw : c.isWhitespace = true
        · exact absurd ⟨hd, hcw⟩ this
        · exact Bool.not_eq_true _ ▸ hcw
      constructor
      · rw [collapse_go, if_pos hd]
        show ' ' :: collapse_go true rest = d :: rest
        rw [ih2 hrest, hd']
      · intro hh
        exact absurd (hh d rfl) (by simp [hd])
    · constructor
      · rw [collapse_go, if_neg hd, ih1]
      · intro _
        rw [collapse_go, if_neg hd, ih1]

theorem headNotWs_dropWhile (l : List Char) :
    headNotWs (l.dropWhile Char.isWhitespace) := by
  induction l with
  | nil => intro c hc; simp at hc
  | cons d rest ih =>
    intro c hc
    rw [List.dropWhile_cons] at hc
    by_cases hd : d.isWhitespace = true
    · rw [if_pos hd] at hc
      exact ih c hc
    · rw [if_neg hd, List.head?_cons, Option.some_inj] at hc
      subst hc
      exact Bool.not_eq_true _ ▸ hd

theorem dropWhile_id_of_headNotWs (l : List Char) (h : headNotWs l) :
    l.dropWhile Char.isWhitespace = l := by
  cases l with
  | nil => rfl
  | cons d rest =>
    rw [List.dropWhile_cons, if_neg (by simp [h d rfl])]

theorem trim_ws_id (l : List Char) (h1 : headNotWs l) (h2 : headNotWs l.reverse) :
    trim_ws l = l := by
  rw [trim_ws, dropWhile_id_of_headNotWs l h1, dropWhile_id_of_headNotWs l.reverse h2,
    List.reverse_reverse]

theorem trim_ws_decomp (x : List Char) :
    ∃ pre suf, x = pre ++ trim_ws x ++ suf := by
  obtain ⟨p1, hp1⟩ := List.dropWhile_suffix (l := x) Char.isWhitespace
  obtain ⟨p2, hp2⟩ :=
    List.dropWhile_suffix (l := (x.dropWhile Char.isWhitespace).reverse) Char.isWhitespace
  refine ⟨p1, p2.reverse, ?_⟩
  have hA : x.dropWhile Char.isWhitespace = trim_ws x ++ p2.reverse := by
    have := congrArg List.reverse hp2
    rw [List.reverse_append, List.reverse_reverse] at this
    rw [← this, trim_ws]
  rw [List.append_assoc, ← hA, hp1]

theorem mem_of_mem_trim (x : List Char) (c : Char) (hc : c ∈ trim_ws x) : c ∈ x := by
  obtain ⟨pre, suf, hx⟩ := trim_ws_decomp x
  rw [hx]
  simp [hc]

theorem noWsPair_trim (x : List Char) (h : noWsPair x) : noWsPair (trim_ws x) := by
  obtain ⟨pre, suf, hx⟩ := trim_ws_decomp x
  rw [noWsPair] at h ⊢
  rw [hx] at h
  exact (h.left_of_append).right_of_append

theorem trim_headNotWs_rev (x : List Char) : headNotWs (trim_ws x).reverse := by
  rw [trim_ws, List.reverse_reverse]
  exact headNotWs_dropWhile _

theorem trim_headNotWs (x : List Char) : headNotWs (trim_ws x) := by
  intro c hc
  rw [trim_ws, List.head?_reverse] at hc
  obtain ⟨p2, hp2⟩ :=
    List.dropWhile_suffix (l := (x.dropWhile Char.isWhitespace).reverse) Char.isWhitespace
  have h1 : (x.dropWhile Char.isWhitespace).reverse.getLast? = some c := by
    rw [← hp2, List.getLast?_append, hc]
    rfl
  rw [List.getLast?_eq_head?_reverse, List.reverse_reverse] at h1
  exact headNotWs_dropWhile x c h1

theorem clean_chars_allKept (s : List Char) : allKept (clean_chars s) := by
  intro c hc
  have hc' : c ∈ collapse_ws (subst_nonkept s) := mem_of_mem_trim _ c hc
  rcases collapse_go_chars _ false c hc' with h | ⟨h1, -⟩
  · rw [h]; decide
  · exact allKept_subst s c h1

theorem clean_chars_wsIsSpace (s : List Char) : wsIsSpace (clean_chars s) := by
  intro c hc hw
  have hc' : c ∈ collapse_ws (subst_nonkept s) := mem_of_mem_trim _ c hc
  rcases collapse_go_chars _ false c hc' with h | ⟨-, h2⟩
  · exact h
  · rw [h2] at hw
    cases hw

theorem clean_chars_idem (s : List Char) :
    clean_chars (clean_chars s) = clean_chars s := by
  have h1 : allKept (clean_chars s) := clean_chars_allKept s
  have h2 : wsIsSpace (clean_chars s) := clean_chars_wsIsSpace s
  have h3 : noWsPair (clean_chars s) := noWsPair_trim _ (collapse_go_chain _ false)
  have h4 : headNotWs (clean_chars s) := trim_headNotWs _
  have h5 : headNotWs (clean_chars s).reverse := trim_headNotWs_rev _
  show trim_ws (collapse_ws (subst_nonkept (clean_chars s))) = clean_chars s
  rw [subst_nonkept_id _ h1,
    show collapse_ws (clean_chars s) = clean_chars s from (collapse_go_id _ h2 h3).1]
  exact trim_ws_id _ h4 h5

/-- C10 (confirmed): `clean_keyword` is idempotent — every output of the
input-cleaning step (trimmed, single internal spaces, no removed special
characters) is a fixed point of the step, so the normal form fed to the
provider is stable under re-cleaning. -/
theorem clean_keyword_idempotent (s : String) :
    clean_keyword (clean_keyword s) = clean_keyword s :=
  congrArg String.mk (clean_chars_idem s.data)

/-- Oracle for the C9 witness: one task whose first poll returns an empty
result list. -/
def oC9 : Oracle := ⟨fun _ _ => some "t", fun _ _ => PollOutcome.ret (some [])⟩

/-- Witness for C9 on a concrete run. -/
theorem progress_counter_witness :
    (process_large_keyword_list oC9 ["a"]).completed = totalBatches ["a"] :=
  (progress_counter oC9 ["a"]).1

/-- Witness for C8 at rounds 3 and 4. -/
theorem backoff_monotone_witness :
    current_interval 3 ≤ current_interval 4 :=
  backoff_monotone.1 3

/-- Witness for C4 on a concrete batch and provider list. -/
theorem reconcile_spec_witness :
    (reconcile ["a"] [⟨"b", 1, 1, ""⟩]).length
      = ([⟨"b", 1, 1, ""⟩] : List KeywordResult).length
        + ((["a"] : List String).filter fun k =>
            !(([⟨"b", 1, 1, ""⟩] : List KeywordResult).any fun r => r.keyword = k)).length :=
  (reconcile_spec ["a"] [⟨"b", 1, 1, ""⟩]).1

/-- Witness for C10 on a concrete string. -/
theorem clean_keyword_idempotent_witness :
    clean_keyword (clean_keyword "  a#  b  ") = clean_keyword "  a#  b  " :=
  clean_keyword_idempotent "  a#  b  "
